import Mathlib

/-!
# Verification of `cd_solver.py` (Countdown numbers game solver)

Shallow embedding of the search core of `cd_solver.py`:

* `is_factor`, `do_op`, `choose_number` — arithmetic primitives and the
  operand selector;
* `guessLoop` / `guessAux` — the recursive stochastic search `guess`;
* `remove_unused_steps` — the solution pruner;
* `has_solution` — the solvability probe.

Modelling conventions:

* Python strings are embedded as `List Char`; `str.split()` is embedded as
  `pySplit` (split on whitespace runs, dropping empty fields); `str(int)`
  is embedded as `pyStr` (decimal rendering via `Int.repr`).
* Randomness (`random.choice`) is an explicit choice stream
  `rnd : Nat → Nat` together with a running index `k`; each draw takes the
  stream value modulo the number of alternatives, so every possible run of
  the program corresponds to some stream.
* Python's float comparison in `is_factor` (`(a / b) == (a // b)`) is
  idealised in exact arithmetic in the main embedding (faithful for
  `|a| < 2^53`, which covers the game's whole value range and every
  concrete run below); the genuine binary64 rounding of the quotient is
  implemented separately (`pyFloatDiv`, `is_factor_float`) and used to
  evaluate the factor test at large operands, where the float comparison
  and exact divisibility genuinely differ.
* The float literal `1e32` (`BIGNUM`) is embedded as its exact binary64
  value.
* The possibly non-terminating search (`guess` retries after a zero result
  with an unchanged pool) is embedded with an explicit fuel counter, one
  unit per loop iteration; `none` means the run did not complete within the
  allotted fuel (or hit the defensive `ValueError`, which is unreachable
  for operators drawn from the policy's list).
* Reference semantics of the Python lists: `guess` copies its `numbers`
  argument on entry (`numbers = copy.copy(numbers)`), so the caller's pool
  object is never touched.  The `steps` list is *not* copied: when the
  caller passes a non-empty list, every `steps.append` acts on the caller's
  object, and recursive calls pass the same object along (after an append
  the list is non-empty, so `if not steps:` never rebinds it).  There is
  therefore exactly one steps object per call tree, whose contents the
  embedding threads explicitly and returns as the `fin` component.
  The recorded best result `best = (error, steps)` stores a *reference* to
  that same object (`SolRef.shared`), which is resolved against the final
  contents when `guess` returns; a best result carried in from outside is
  `SolRef.fixed`.
* The recursive call `return guess(target, numbers, steps, best)` re-enters
  `guess` with a non-empty `steps` list and a tuple `best`, so its entry
  normalisations are no-ops except for the `if target in numbers` check;
  that check is inlined at the recursion site of `guessLoop`.
-/

namespace CdSolver

/-- One solution step, a Python string, embedded as its character list. -/
abbrev Step := List Char

/-- `BIGNUM = 1e32`, the initial "infinite" error.  The float literal
`1e32` denotes the binary64 value 100000000000000005366162204393472
(the nearest double to 10^32), used here exactly. -/
def BIGNUM : Int := 100000000000000005366162204393472

/-- Embedding of Python `str(i)` for an integer: decimal rendering. -/
def pyStr (i : Int) : List Char := (Int.repr i).toList

/-- Worker for `pySplit`: `acc` holds the current field, reversed. -/
def pySplitAux : List Char → List Char → List (List Char)
  | [], acc => if acc = [] then [] else [acc.reverse]
  | c :: cs, acc =>
    if c.isWhitespace then
      if acc = [] then pySplitAux cs [] else acc.reverse :: pySplitAux cs []
    else
      pySplitAux cs (c :: acc)

/-- Embedding of Python `str.split()` (no argument): split on runs of
whitespace, discarding empty fields. -/
def pySplit (s : List Char) : List (List Char) := pySplitAux s []

/-- Right-align in the given width with spaces (Python `f"{x:>4d}"`). -/
def padL (s : List Char) (n : Nat) : List Char :=
  List.replicate (n - s.length) ' ' ++ s

/-- Left-align in the given width with spaces (Python `f"{x:<4d}"`). -/
def padR (s : List Char) (n : Nat) : List Char :=
  s ++ List.replicate (n - s.length) ' '

/-- The step string `f"{num_a:>4d} {op} {num_b:<4d} = {res:<4d}"`. -/
def fmtStep (a : Int) (op : List Char) (b : Int) (res : Int) : Step :=
  padL (pyStr a) 4 ++ [' '] ++ op ++ [' '] ++ padR (pyStr b) 4 ++
    [' ', '=', ' '] ++ padR (pyStr res) 4

/-- The trivial step `f"{target} = {target}"` returned when the target is
already in the pool. -/
def trivialStep (t : Int) : Step :=
  pyStr t ++ [' ', '=', ' '] ++ pyStr t

/-- The last whitespace-separated token of a step string: for a well-formed
step `a op b = res` this is the rendered result, and for the trivial step
`t = t` it is the rendered target. -/
def stepResTok (s : Step) : Option (List Char) := (pySplit s).getLast?

/-- `is_factor(b, a)`: `True if b is a factor of a`.  The Python code
compares the float division with the floor division, `(a / b) == (a // b)`.
This main embedding idealises the comparison in exact arithmetic,
denominator-cleared: for `b ≠ 0`, `a / b = (a // b)` over `ℚ` iff
`a = b * (a // b)` over `ℤ` (see `is_factor_rat_char` for the fraction
form).  The idealisation agrees with the float comparison whenever
`|a| < 2^53` — in particular on every pool reachable from the game's tile
set and on every concrete run below — but not beyond: `is_factor_float`
further below evaluates the genuine binary64 rounding and exhibits the
divergence at large operands. -/
def is_factor (b a : Int) : Bool :=
  if b = 0 then false
  else decide (a = b * Int.fdiv a b)

/-- `choose_number`: randomly choose a number from a list and remove it
(first occurrence, like Python `list.remove`).  On an empty list Python
returns `None` without consuming randomness. -/
def choose_number (numbers : List Int) (r : Nat) : Option Int × List Int :=
  if h : numbers = [] then (none, numbers)
  else
    let num := numbers.get ⟨r % numbers.length,
      Nat.mod_lt r (List.length_pos.mpr h)⟩
    (some num, numbers.erase num)

/-- `do_op`: perform an operator on two numbers.  `//` is Python floor
division (`Int.fdiv`); `none` embeds the raised exception (the defensive
`ValueError`, or `ZeroDivisionError` for `a // 0`). -/
def do_op (a b : Int) (op : List Char) : Option Int :=
  if op = ['+'] then some (a + b)
  else if op = ['-'] then some (a - b)
  else if op = ['*'] then some (a * b)
  else if op = ['/'] then (if b = 0 then none else some (Int.fdiv a b))
  else none

/-- The operator list built by `guess` for canonically ordered operands:
`["+", "-"]`, plus `"*"` when neither operand is `1`, plus `"/"` when
additionally `is_factor(num_b, num_a)` holds. -/
def opsList (a b : Int) : List (List Char) :=
  if a = 1 ∨ b = 1 then [['+'], ['-']]
  else if is_factor b a then [['+'], ['-'], ['*'], ['/']]
  else [['+'], ['-'], ['*']]

theorem opsList_length_pos (a b : Int) : 0 < (opsList a b).length := by
  unfold opsList
  split
  · simp
  · split <;> simp

/-- `op = random.choice(ops)`: pick the operator indexed by the stream
value modulo the number of eligible operators. -/
def pickOp (a b : Int) (r : Nat) : List Char :=
  (opsList a b).get ⟨r % (opsList a b).length,
    Nat.mod_lt r (opsList_length_pos a b)⟩

theorem pickOp_mem (a b : Int) (r : Nat) : pickOp a b r ∈ opsList a b :=
  List.get_mem _ _ _

/-- A solution value held in `best`: either a reference to the single
in-progress steps object of the current call tree (`shared`, created by
`best = (error, steps)`), or an independent list from outside the call tree
(`fixed`; `fixed none` embeds Python `None`). -/
inductive SolRef where
  | shared : SolRef
  | fixed : Option (List Step) → SolRef
deriving DecidableEq

/-- Contents denoted by a `SolRef` given the current contents of the shared
steps object. -/
def resolveRef (r : SolRef) (steps : List Step) : Option (List Step) :=
  match r with
  | .shared => some steps
  | .fixed o => o

/-- The default best result `(BIGNUM, ["."])` created on entry when the
caller passed no best (`if not best:`). -/
def defaultBest : Int × SolRef := (BIGNUM, SolRef.fixed (some [['.']]))

/-- Error component of an optional carried-in best result (the default
applies when the caller passed `None`). -/
def errOf (b : Option (Int × SolRef)) : Int := (b.getD defaultBest).1

/-- Result of a completed `guess` call: the returned `(error, solution)`
pair, the final contents of the (single) in-progress steps object, and the
final choice-stream index. -/
abbrev GuessRet := (Int × Option (List Step)) × List Step × Nat

/-- The `while numbers:` loop of `guess` (lines 222–277).  One unit of fuel
per loop iteration; the recursive call `return guess(...)` is inlined (its
entry normalisations are no-ops there except the `target in numbers`
check). -/
def guessLoop : Nat → Int → List Int → List Step → Int × SolRef →
    (Nat → Nat) → Nat → Option GuessRet
  | 0, _, _, _, _, _, _ => none
  | fuel + 1, t, numbers, steps, best, rnd, k =>
    if numbers = [] then
      some ((best.1, resolveRef best.2 steps), steps, k)
    else
      match choose_number numbers (rnd k) with
      | (none, _) => some ((best.1, resolveRef best.2 steps), steps, k)
      | (some a0, numbers1) =>
        match choose_number numbers1 (rnd (k + 1)) with
        | (none, _) =>
          -- `None in (num_a, num_b)`: give up on this path, return best
          some ((best.1, resolveRef best.2 steps), steps, k + 1)
        | (some b0, numbers2) =>
          -- canonical order: num_a is the larger number
          let a := if a0 < b0 then b0 else a0
          let b := if a0 < b0 then a0 else b0
          let op := pickOp a b (rnd (k + 2))
          match do_op a b op with
          | none => none
          | some res =>
            if res = 0 then
              -- put the numbers back and try again
              guessLoop fuel t (numbers2 ++ [a, b]) steps best rnd (k + 3)
            else
              let st := fmtStep a op b res
              let error := |res - t|
              let best1 :=
                if error < best.1 then (error, SolRef.shared) else best
              if error = 0 then
                some ((best1.1, resolveRef best1.2 (steps ++ [st])),
                  steps ++ [st], k + 3)
              else
                -- `return guess(target, numbers, steps, best)`
                if t ∈ numbers2 ++ [res] then
                  some ((0, some [trivialStep t]), steps ++ [st], k + 3)
                else
                  guessLoop fuel t (numbers2 ++ [res]) (steps ++ [st])
                    best1 rnd (k + 3)

/-- `guess(target, numbers, steps, best)` (lines 194–277): entry checks,
then the search loop.  `steps` holds the contents of the caller's steps
object (`[]` for the `None` default), `best` is the optional carried-in
best result. -/
def guessAux (fuel : Nat) (t : Int) (numbers : List Int) (steps : List Step)
    (best : Option (Int × SolRef)) (rnd : Nat → Nat) (k : Nat) :
    Option GuessRet :=
  if t ∈ numbers then some ((0, some [trivialStep t]), steps, k)
  else guessLoop fuel t numbers steps (best.getD defaultBest) rnd k

/-- Caller-visible contents of the caller's steps-list object after the
call: `if not steps: steps = []` rebinds `steps` to a fresh list exactly
when the caller's list is empty (or `None`), so only a non-empty caller
list is shared with (and possibly extended by) the callee. -/
def callerStepsAfter (steps0 : List Step) (fin : List Step) : List Step :=
  if steps0 = [] then steps0 else fin

/-- First loop of `remove_unused_steps`: unpack every step as
`num_a _op num_b _eq res` and collect `[num_a, num_b]`; `none` embeds the
unpacking `ValueError` raised when a step does not split into exactly five
fields. -/
def splitStep (s : Step) :
    Option (List Char × List Char × List Char × List Char × List Char) :=
  match pySplit s with
  | [a, op, b, eq, r] => some (a, op, b, eq, r)
  | _ => none

/-- `used_numbers` of `remove_unused_steps`. -/
def collectUsed : List Step → Option (List (List Char))
  | [] => some []
  | s :: rest =>
    match splitStep s with
    | none => none
    | some (a, _, b, _, _) => (collectUsed rest).map (fun u => a :: b :: u)

/-- `steps_to_remove` of `remove_unused_steps`: the steps of the given list
whose result field is not in `used`. -/
def stepsToRemove (used : List (List Char)) : List Step → Option (List Step)
  | [] => some []
  | s :: rest =>
    match splitStep s with
    | none => none
    | some (_, _, _, _, r) =>
      (stepsToRemove used rest).map
        (fun ts => if used.contains r then ts else s :: ts)

/-- Keep-predicate of the pruner: a step is kept when its result field
occurs in the collected operand fields. -/
def keep (used : List (List Char)) (s : Step) : Bool :=
  match splitStep s with
  | some (_, _, _, _, r) => used.contains r
  | none => true

/-- `remove_unused_steps(steps)` (lines 175–191): collect all operand
fields, collect the non-final steps whose result field is unused, then
remove each of them from the list (`list.remove`: first occurrence). -/
def remove_unused_steps (steps : List Step) : Option (List Step) :=
  match collectUsed steps with
  | none => none
  | some used =>
    match stepsToRemove used steps.dropLast with
    | none => none
    | some toRemove => some (toRemove.foldl List.erase steps)

/-- Loop of `has_solution` (lines 325–339): `n` remaining iterations of
`error, solution = guess(targ, nums, best=(error, solution))`. -/
def has_solutionAux : Nat → Int → List Int → (Int × Option (List Step)) →
    (Nat → Nat) → Nat → Nat → Option (Int × Option (List Step))
  | 0, _, _, best, _, _, _ => some best
  | n + 1, targ, nums, best, rnd, k, fuel =>
    match guessAux fuel targ nums [] (some (best.1, SolRef.fixed best.2))
        rnd k with
    | none => none
    | some (r, _, k2) => has_solutionAux n targ nums r rnd k2 fuel

/-- `has_solution(targ, nums)`: start from `(BIGNUM, None)`, run 1000
`guess` calls threading the best result, return `error == 0`. -/
def has_solution (targ : Int) (nums : List Int) (rnd : Nat → Nat)
    (fuel : Nat) : Option Bool :=
  (has_solutionAux 1000 targ nums (BIGNUM, none) rnd 0 fuel).map
    (fun best => decide (best.1 = 0))

/-- Generic bounded iteration of a partial step function (used to state
that `has_solution` is exactly a 1000-fold threading of single `guess`
calls). -/
def iterateO {α : Type} (f : α → Option α) : Nat → α → Option α
  | 0, a => some a
  | n + 1, a =>
    match f a with
    | none => none
    | some b => iterateO f n b

/-- One `guess` call as threaded by `has_solution`: state is the carried
`(error, solution)` pair plus the choice-stream index. -/
def guessStep (t : Int) (nums : List Int) (rnd : Nat → Nat) (fuel : Nat) :
    (Int × Option (List Step)) × Nat →
    Option ((Int × Option (List Step)) × Nat) :=
  fun bk =>
    match guessAux fuel t nums [] (some (bk.1.1, SolRef.fixed bk.1.2))
        rnd bk.2 with
    | none => none
    | some (r, _, k2) => some (r, k2)

/-! ## Character-level facts about decimal rendering -/

theorem digitChar_not_ws : ∀ m : Nat, m < 10 → (Nat.digitChar m).isWhitespace = false := by
  decide

theorem toDigitsCore_not_ws : ∀ (f n : Nat) (ds : List Char),
    (∀ c ∈ ds, c.isWhitespace = false) →
    ∀ c ∈ Nat.toDigitsCore 10 f n ds, c.isWhitespace = false := by
  intro f
  induction f with
  | zero => intro n ds h c hc; exact h c hc
  | succ f ih =>
    intro n ds h c hc
    have hd : (Nat.digitChar (n % 10)).isWhitespace = false :=
      digitChar_not_ws _ (Nat.mod_lt _ (by decide))
    simp only [Nat.toDigitsCore] at hc
    split at hc
    · rcases List.mem_cons.mp hc with h1 | h1
      · simpa [h1] using hd
      · exact h c h1
    · refine ih (n / 10) _ ?_ c hc
      intro x hx
      rcases List.mem_cons.mp hx with h1 | h1
      · simpa [h1] using hd
      · exact h x h1

theorem toDigitsCore_ne_nil_of_ne_nil : ∀ (f n : Nat) (ds : List Char),
    ds ≠ [] → Nat.toDigitsCore 10 f n ds ≠ [] := by
  intro f
  induction f with
  | zero => intro n ds h; exact h
  | succ f ih =>
    intro n ds h
    simp only [Nat.toDigitsCore]
    split
    · simp
    · exact ih (n / 10) _ (by simp)

theorem toDigits_ne_nil (n : Nat) : Nat.toDigits 10 n ≠ [] := by
  rw [Nat.toDigits, Nat.toDigitsCore]
  split
  · simp
  · exact toDigitsCore_ne_nil_of_ne_nil _ _ _ (by simp)

theorem toDigits_not_ws (n : Nat) :
    ∀ c ∈ Nat.toDigits 10 n, c.isWhitespace = false :=
  toDigitsCore_not_ws _ _ _ (by intro c hc; cases hc)

theorem pyStr_ofNat (m : Nat) : pyStr (Int.ofNat m) = Nat.toDigits 10 m := rfl

theorem pyStr_negSucc (m : Nat) :
    pyStr (Int.negSucc m) = '-' :: Nat.toDigits 10 (m + 1) := rfl

theorem pyStr_ne_nil (i : Int) : pyStr i ≠ [] := by
  cases i with
  | ofNat m => rw [pyStr_ofNat]; exact toDigits_ne_nil m
  | negSucc m => rw [pyStr_negSucc]; simp

theorem pyStr_not_ws (i : Int) : ∀ c ∈ pyStr i, c.isWhitespace = false := by
  cases i with
  | ofNat m => rw [pyStr_ofNat]; exact toDigits_not_ws m
  | negSucc m =>
    rw [pyStr_negSucc]
    intro c hc
    rcases List.mem_cons.mp hc with h1 | h1
    · simp [h1]
    · exact toDigits_not_ws _ c h1

/-! ## Tokenization lemmas for `pySplit` -/

theorem pySplitAux_ws_cons {c : Char} (hc : c.isWhitespace = true)
    (cs : List Char) : pySplitAux (c :: cs) [] = pySplitAux cs [] := by
  simp [pySplitAux, hc]

theorem pySplitAux_ws_skip (sp : List Char)
    (hsp : ∀ c ∈ sp, c.isWhitespace = true) (cs : List Char) :
    pySplitAux (sp ++ cs) [] = pySplitAux cs [] := by
  induction sp with
  | nil => rfl
  | cons c sp ih =>
    rw [List.cons_append, pySplitAux_ws_cons (hsp c (by simp))]
    exact ih (fun x hx => hsp x (by simp [hx]))

theorem pySplitAux_word (w : List Char)
    (hw : ∀ c ∈ w, c.isWhitespace = false) :
    ∀ (acc : List Char) (c : Char) (cs : List Char), c.isWhitespace = true →
    pySplitAux (w ++ c :: cs) acc =
      (if acc.reverse ++ w = [] then pySplitAux cs []
       else (acc.reverse ++ w) :: pySplitAux cs []) := by
  induction w with
  | nil =>
    intro acc c cs hc
    simp only [List.nil_append, pySplitAux, hc, if_true, List.append_nil]
    by_cases h : acc = [] <;> simp [h]
  | cons x w ih =>
    intro acc c cs hc
    have hx := hw x (by simp)
    simp only [List.cons_append, pySplitAux, hx, Bool.false_eq_true,
      if_false, List.append_eq]
    rw [ih (fun y hy => hw y (by simp [hy])) (x :: acc) c cs hc]
    simp [List.append_assoc]

theorem pySplitAux_word_only (w : List Char)
    (hw : ∀ c ∈ w, c.isWhitespace = false) :
    ∀ acc : List Char,
    pySplitAux w acc =
      (if acc.reverse ++ w = [] then [] else [acc.reverse ++ w]) := by
  induction w with
  | nil =>
    intro acc
    simp only [pySplitAux, List.append_nil]
    by_cases h : acc = [] <;> simp [h]
  | cons x w ih =>
    intro acc
    have hx := hw x (by simp)
    simp only [pySplitAux, hx, Bool.false_eq_true, if_false]
    rw [ih (fun y hy => hw y (by simp [hy])) (x :: acc)]
    simp [List.append_assoc]

theorem pySplitAux_word_cons (w : List Char) (hwne : w ≠ [])
    (hw : ∀ c ∈ w, c.isWhitespace = false) {c : Char}
    (hc : c.isWhitespace = true) (cs : List Char) :
    pySplitAux (w ++ c :: cs) [] = w :: pySplitAux cs [] := by
  rw [pySplitAux_word w hw [] c cs hc]
  simp [hwne]

theorem pySplitAux_word_pad (w : List Char) (hwne : w ≠ [])
    (hw : ∀ c ∈ w, c.isWhitespace = false) (sp : List Char)
    (hsp : ∀ c ∈ sp, c.isWhitespace = true) {c : Char}
    (hc : c.isWhitespace = true) (cs : List Char) :
    pySplitAux (w ++ (sp ++ c :: cs)) [] = w :: pySplitAux cs [] := by
  cases sp with
  | nil => exact pySplitAux_word_cons w hwne hw hc cs
  | cons d sp =>
    have : w ++ (d :: sp ++ c :: cs) = w ++ d :: (sp ++ c :: cs) := by simp
    rw [this, pySplitAux_word_cons w hwne hw (hsp d (by simp)),
      pySplitAux_ws_skip sp (fun x hx => hsp x (by simp [hx])),
      pySplitAux_ws_cons hc]

theorem pySplitAux_word_end (w : List Char) (hwne : w ≠ [])
    (hw : ∀ c ∈ w, c.isWhitespace = false) (sp : List Char)
    (hsp : ∀ c ∈ sp, c.isWhitespace = true) :
    pySplitAux (w ++ sp) [] = [w] := by
  cases sp with
  | nil => rw [List.append_nil, pySplitAux_word_only w hw []]; simp [hwne]
  | cons c sp =>
    rw [pySplitAux_word_cons w hwne hw (hsp c (by simp)),
      ← List.append_nil sp, pySplitAux_ws_skip sp
        (fun x hx => hsp x (List.mem_cons_of_mem c hx))]
    rfl

theorem replicate_space_ws (n : Nat) :
    ∀ c ∈ List.replicate n ' ', c.isWhitespace = true := by
  intro c hc
  rw [List.eq_of_mem_replicate hc]
  decide

theorem pySplit_fmtStep (a : Int) (op : List Char) (b res : Int)
    (hopne : op ≠ []) (hop : ∀ c ∈ op, c.isWhitespace = false) :
    pySplit (fmtStep a op b res) = [pyStr a, op, pyStr b, ['='], pyStr res] := by
  have hre :
      fmtStep a op b res =
        List.replicate (4 - (pyStr a).length) ' ' ++
          (pyStr a ++ ' ' :: (op ++ ' ' :: (pyStr b ++
            (List.replicate (4 - (pyStr b).length) ' ' ++ ' ' :: '=' :: ' ' ::
              (pyStr res ++ List.replicate (4 - (pyStr res).length) ' '))))) := by
    simp [fmtStep, padL, padR]
  rw [pySplit, hre,
    pySplitAux_ws_skip _ (replicate_space_ws _),
    pySplitAux_word_cons _ (pyStr_ne_nil a) (pyStr_not_ws a) (by decide),
    pySplitAux_word_cons _ hopne hop (by decide),
    pySplitAux_word_pad _ (pyStr_ne_nil b) (pyStr_not_ws b) _
      (replicate_space_ws _) (by decide),
    show ('=' :: ' ' ::
        (pyStr res ++ List.replicate (4 - (pyStr res).length) ' ')) =
      ['='] ++ ' ' ::
        (pyStr res ++ List.replicate (4 - (pyStr res).length) ' ') from rfl,
    pySplitAux_word_cons ['='] (by simp) (by decide) (by decide),
    pySplitAux_word_end _ (pyStr_ne_nil res) (pyStr_not_ws res) _
      (replicate_space_ws _)]

theorem pySplit_trivialStep (t : Int) :
    pySplit (trivialStep t) = [pyStr t, ['='], pyStr t] := by
  have hre : trivialStep t = pyStr t ++ ' ' :: '=' :: ' ' :: pyStr t := by
    simp [trivialStep]
  rw [pySplit, hre,
    pySplitAux_word_cons _ (pyStr_ne_nil t) (pyStr_not_ws t) (by decide),
    show ('=' :: ' ' :: pyStr t) = ['='] ++ ' ' :: pyStr t from rfl,
    pySplitAux_word_cons ['='] (by simp) (by decide) (by decide),
    ← List.append_nil (pyStr t),
    pySplitAux_word_end _ (pyStr_ne_nil t) (pyStr_not_ws t) []
      (by intro c hc; cases hc)]
  simp

theorem stepResTok_fmtStep (a : Int) (op : List Char) (b res : Int)
    (hopne : op ≠ []) (hop : ∀ c ∈ op, c.isWhitespace = false) :
    stepResTok (fmtStep a op b res) = some (pyStr res) := by
  rw [stepResTok, pySplit_fmtStep a op b res hopne hop]
  rfl

theorem stepResTok_trivialStep (t : Int) :
    stepResTok (trivialStep t) = some (pyStr t) := by
  rw [stepResTok, pySplit_trivialStep t]
  rfl

theorem splitStep_fmtStep (a : Int) (op : List Char) (b res : Int)
    (hopne : op ≠ []) (hop : ∀ c ∈ op, c.isWhitespace = false) :
    splitStep (fmtStep a op b res) =
      some (pyStr a, op, pyStr b, ['='], pyStr res) := by
  rw [splitStep, pySplit_fmtStep a op b res hopne hop]

theorem splitStep_trivialStep (t : Int) : splitStep (trivialStep t) = none := by
  rw [splitStep, pySplit_trivialStep t]

/-! ## Arithmetic primitives -/

theorem is_factor_eq_true_iff (b a : Int) :
    is_factor b a = true ↔ b ≠ 0 ∧ b ∣ a := by
  unfold is_factor
  split
  · rename_i hb
    simp [hb]
  · rename_i hb
    simp only [decide_eq_true_eq]
    constructor
    · intro h
      exact ⟨hb, Int.fdiv a b, h⟩
    · rintro ⟨-, c, rfl⟩
      rw [Int.mul_fdiv_cancel_left c hb]

/-- The integer comparison used in `is_factor` is exactly the source's
comparison of the true quotient with the floor quotient, read over `ℚ`. -/
theorem is_factor_rat_char {b : Int} (a : Int) (hb : b ≠ 0) :
    is_factor b a = true ↔ (a : ℚ) / (b : ℚ) = ((Int.fdiv a b : Int) : ℚ) := by
  unfold is_factor
  rw [if_neg hb]
  have hbq : (b : ℚ) ≠ 0 := Int.cast_ne_zero.mpr hb
  simp only [decide_eq_true_eq]
  rw [div_eq_iff hbq]
  constructor
  · intro h
    rw [mul_comm]
    exact_mod_cast h
  · intro h
    have h2 : (a : ℚ) = ((b * Int.fdiv a b : Int) : ℚ) := by
      push_cast
      rw [mul_comm]
      exact h
    exact_mod_cast h2

/-! ## Properties of the operand selector and the operator policy -/

theorem choose_number_none {numbers : List Int} {r : Nat} {l : List Int}
    (h : choose_number numbers r = (none, l)) :
    numbers = [] ∧ l = [] := by
  unfold choose_number at h
  split at h
  · rename_i he
    exact ⟨he, by cases h; assumption⟩
  · simp at h

theorem choose_number_some {numbers : List Int} {r : Nat} {a : Int}
    {l : List Int} (h : choose_number numbers r = (some a, l)) :
    a ∈ numbers ∧ l = numbers.erase a := by
  unfold choose_number at h
  split at h
  · simp at h
  · simp only [Prod.mk.injEq, Option.some.injEq] at h
    obtain ⟨h1, h2⟩ := h
    subst h1
    exact ⟨List.get_mem _ _ _, h2.symm⟩

theorem opsList_shape {a b : Int} {op : List Char} (h : op ∈ opsList a b) :
    op = ['+'] ∨ op = ['-'] ∨ op = ['*'] ∨ op = ['/'] := by
  unfold opsList at h
  split at h
  · simp only [List.mem_cons, List.not_mem_nil, or_false] at h
    tauto
  · split at h <;>
      (simp only [List.mem_cons, List.not_mem_nil, or_false] at h; tauto)

theorem opsList_div {a b : Int} (h : ['/'] ∈ opsList a b) :
    a ≠ 1 ∧ b ≠ 1 ∧ is_factor b a = true := by
  unfold opsList at h
  split at h
  · simp at h
  · rename_i hne
    push_neg at hne
    split at h
    · exact ⟨hne.1, hne.2, by assumption⟩
    · simp at h

theorem opsList_not_ws {a b : Int} {op : List Char} (h : op ∈ opsList a b) :
    op ≠ [] ∧ ∀ c ∈ op, c.isWhitespace = false := by
  rcases opsList_shape h with h | h | h | h <;>
    (subst h; exact ⟨by simp, by intro c hc; simp at hc; simp [hc]⟩)

theorem do_op_some {a b : Int} {op : List Char} (h : op ∈ opsList a b) :
    (do_op a b op).isSome = true := by
  rcases opsList_shape h with h' | h' | h' | h'
  · subst h'; simp [do_op]
  · subst h'; simp [do_op]
  · subst h'; simp [do_op]
  · subst h'
    rcases opsList_div h with ⟨-, -, hf⟩
    rcases (is_factor_eq_true_iff b a).mp hf with ⟨hb, -⟩
    simp [do_op, hb]

/-! ## Properties of the solution pruner -/

theorem collectUsed_none {steps : List Step} {s : Step} (hs : s ∈ steps)
    (h : splitStep s = none) : collectUsed steps = none := by
  induction steps with
  | nil => cases hs
  | cons x rest ih =>
    rcases List.mem_cons.mp hs with h1 | h1
    · subst h1
      simp [collectUsed, h]
    · rw [collectUsed]
      split
      · rfl
      · rw [ih h1]
        rfl

theorem collectUsed_isSome {steps : List Step}
    (hw : ∀ s ∈ steps, (splitStep s).isSome = true) :
    ∃ used, collectUsed steps = some used := by
  induction steps with
  | nil => exact ⟨[], rfl⟩
  | cons x rest ih =>
    obtain ⟨u, hu⟩ := ih (fun s hs => hw s (List.mem_cons_of_mem x hs))
    have hx := hw x (List.mem_cons_self x rest)
    rw [Option.isSome_iff_exists] at hx
    obtain ⟨⟨a, op, b, eq, r⟩, hx⟩ := hx
    exact ⟨a :: b :: u, by rw [collectUsed, hx, hu]; rfl⟩

theorem stepsToRemove_eq_filter (used : List (List Char)) :
    ∀ l : List Step, (∀ s ∈ l, (splitStep s).isSome = true) →
    stepsToRemove used l = some (l.filter (fun s => !(keep used s))) := by
  intro l
  induction l with
  | nil => intro _; rfl
  | cons x rest ih =>
    intro hw
    have hx := hw x (List.mem_cons_self x rest)
    rw [Option.isSome_iff_exists] at hx
    obtain ⟨⟨a, op, b, eq, r⟩, hx⟩ := hx
    rw [stepsToRemove, hx, ih (fun s hs => hw s (List.mem_cons_of_mem x hs))]
    by_cases hk : used.contains r
    · simp [List.filter_cons, keep, hx, hk]
    · simp [List.filter_cons, keep, hx, hk]

theorem foldl_erase_sublist {α : Type} [BEq α] :
    ∀ (r l : List α), List.Sublist (List.foldl List.erase l r) l := by
  intro r
  induction r with
  | nil => intro l; exact List.Sublist.refl l
  | cons x r ih =>
    intro l
    exact (ih (l.erase x)).trans (List.erase_sublist x l)

theorem foldl_erase_cons_of_ne {α : Type} [BEq α] [LawfulBEq α] {x : α} :
    ∀ (r l : List α), (∀ e ∈ r, e ≠ x) →
    List.foldl List.erase (x :: l) r = x :: List.foldl List.erase l r := by
  intro r
  induction r with
  | nil => intro l _; rfl
  | cons e r ih =>
    intro l h
    have hne : (x == e) = false :=
      beq_false_of_ne (fun hx => h e (List.mem_cons_self e r) hx.symm)
    simp only [List.foldl_cons, List.erase_cons, hne, if_false,
      Bool.false_eq_true]
    exact ih _ (fun y hy => h y (List.mem_cons_of_mem e hy))

theorem foldl_erase_filter (P : Step → Bool) :
    ∀ (xs ys : List Step),
    List.foldl List.erase (xs ++ ys) (xs.filter (fun s => !(P s))) =
      xs.filter P ++ ys := by
  intro xs
  induction xs with
  | nil => intro ys; rfl
  | cons x xs ih =>
    intro ys
    by_cases hx : P x
    · have hfc : (x :: xs).filter (fun s => !(P s)) =
          xs.filter (fun s => !(P s)) := by
        simp [List.filter_cons, hx]
      rw [hfc, List.cons_append,
        foldl_erase_cons_of_ne _ _ (fun e he hex => by
          have : ¬ P e := by
            have := List.of_mem_filter he
            simpa using this
          exact this (hex ▸ hx)),
        ih ys]
      simp [List.filter_cons, hx]
    · have hfc : (x :: xs).filter (fun s => !(P s)) =
          x :: xs.filter (fun s => !(P s)) := by
        simp [List.filter_cons, hx]
      rw [hfc, List.cons_append, List.foldl_cons, List.erase_cons_head,
        ih ys]
      simp [List.filter_cons, hx]

/-- Characterisation of the pruner on non-empty well-formed step lists:
it keeps exactly the non-final steps whose result field occurs among the
collected operand fields, and always retains the final step. -/
theorem remove_unused_steps_eq (steps : List Step) (hne : steps ≠ [])
    (hw : ∀ s ∈ steps, (splitStep s).isSome = true) :
    ∃ used last, steps.getLast? = some last ∧
      collectUsed steps = some used ∧
      remove_unused_steps steps =
        some (steps.dropLast.filter (keep used) ++ [last]) := by
  obtain ⟨used, hused⟩ := collectUsed_isSome hw
  refine ⟨used, steps.getLast hne, List.getLast?_eq_getLast _ hne, hused, ?_⟩
  have hstr := stepsToRemove_eq_filter used steps.dropLast
    (fun s hs => hw s ((List.dropLast_sublist steps).subset hs))
  simp only [remove_unused_steps, hused, hstr]
  have hsplit : steps.dropLast ++ [steps.getLast hne] = steps :=
    List.dropLast_append_getLast hne
  conv_lhs => rw [← hsplit]
  rw [List.dropLast_concat,
    foldl_erase_filter (keep used) steps.dropLast [steps.getLast hne]]

theorem remove_unused_steps_sublist {l l' : List Step}
    (h : remove_unused_steps l = some l') : List.Sublist l' l := by
  unfold remove_unused_steps at h
  split at h
  · cases h
  · split at h
    · cases h
    · rw [Option.some.injEq] at h
      rw [← h]
      exact foldl_erase_sublist _ _

theorem remove_unused_steps_none {steps : List Step} {s : Step}
    (hs : s ∈ steps) (h : splitStep s = none) :
    remove_unused_steps steps = none := by
  rw [remove_unused_steps, collectUsed_none hs h]

/-! ## Invariants of the search loop -/

theorem guessLoop_steps_grow :
    ∀ (fuel : Nat) (t : Int) (numbers : List Int) (steps : List Step)
      (best : Int × SolRef) (rnd : Nat → Nat) (k : Nat) (e : Int)
      (sol : Option (List Step)) (fin : List Step) (k2 : Nat),
    guessLoop fuel t numbers steps best rnd k = some ((e, sol), fin, k2) →
    List.IsPrefix steps fin := by
  intro fuel
  induction fuel with
  | zero =>
    intro t numbers steps best rnd k e sol fin k2 h
    simp [guessLoop] at h
  | succ f ih =>
    intro t numbers steps best rnd k e sol fin k2 h
    rw [guessLoop] at h
    by_cases h0 : numbers = []
    · rw [if_pos h0] at h
      simp only [Option.some.injEq, Prod.mk.injEq] at h
      rw [← h.2.1]
    · rw [if_neg h0] at h
      rcases hc1 : choose_number numbers (rnd k) with ⟨a?, numbers1⟩
      rw [hc1] at h
      cases a? with
      | none =>
        simp only [Option.some.injEq, Prod.mk.injEq] at h
        rw [← h.2.1]
      | some a0 =>
        simp only [] at h
        rcases hc2 : choose_number numbers1 (rnd (k + 1)) with ⟨b?, numbers2⟩
        rw [hc2] at h
        cases b? with
        | none =>
          simp only [Option.some.injEq, Prod.mk.injEq] at h
          rw [← h.2.1]
        | some b0 =>
          simp only [] at h
          cases hdo : do_op (if a0 < b0 then b0 else a0)
              (if a0 < b0 then a0 else b0)
              (pickOp (if a0 < b0 then b0 else a0)
                (if a0 < b0 then a0 else b0) (rnd (k + 2))) with
          | none => rw [hdo] at h; cases h
          | some res =>
            rw [hdo] at h
            simp only [] at h
            by_cases hres : res = 0
            · rw [if_pos hres] at h
              exact ih _ _ _ _ _ _ _ _ _ _ h
            · rw [if_neg hres] at h
              by_cases herr : |res - t| = 0
              · rw [if_pos herr] at h
                simp only [Option.some.injEq, Prod.mk.injEq] at h
                rw [← h.2.1]
                exact List.prefix_append _ _
              · rw [if_neg herr] at h
                by_cases hmem : t ∈ numbers2 ++ [res]
                · rw [if_pos hmem] at h
                  simp only [Option.some.injEq, Prod.mk.injEq] at h
                  rw [← h.2.1]
                  exact List.prefix_append _ _
                · rw [if_neg hmem] at h
                  exact (List.prefix_append steps _).trans
                    (ih _ _ _ _ _ _ _ _ _ _ h)

theorem guessAux_steps_grow {fuel : Nat} {t : Int} {numbers : List Int}
    {steps : List Step} {best : Option (Int × SolRef)} {rnd : Nat → Nat}
    {k : Nat} {e : Int} {sol : Option (List Step)} {fin : List Step}
    {k2 : Nat}
    (h : guessAux fuel t numbers steps best rnd k = some ((e, sol), fin, k2)) :
    List.IsPrefix steps fin := by
  unfold guessAux at h
  split at h
  · simp only [Option.some.injEq, Prod.mk.injEq] at h
    rw [← h.2.1]
  · exact guessLoop_steps_grow _ _ _ _ _ _ _ _ _ _ _ h

theorem guessLoop_len :
    ∀ (fuel : Nat) (t : Int) (numbers : List Int) (steps : List Step)
      (best : Int × SolRef) (rnd : Nat → Nat) (k : Nat) (e : Int)
      (sol : Option (List Step)) (fin : List Step) (k2 : Nat),
    guessLoop fuel t numbers steps best rnd k = some ((e, sol), fin, k2) →
    fin.length ≤ steps.length + numbers.length := by
  intro fuel
  induction fuel with
  | zero =>
    intro t numbers steps best rnd k e sol fin k2 h
    simp [guessLoop] at h
  | succ f ih =>
    intro t numbers steps best rnd k e sol fin k2 h
    rw [guessLoop] at h
    by_cases h0 : numbers = []
    · rw [if_pos h0] at h
      simp only [Option.some.injEq, Prod.mk.injEq] at h
      rw [← h.2.1]
      exact Nat.le_add_right _ _
    · rw [if_neg h0] at h
      have hnp : 0 < numbers.length := List.length_pos.mpr h0
      rcases hc1 : choose_number numbers (rnd k) with ⟨a?, numbers1⟩
      rw [hc1] at h
      cases a? with
      | none =>
        simp only [Option.some.injEq, Prod.mk.injEq] at h
        rw [← h.2.1]
        exact Nat.le_add_right _ _
      | some a0 =>
        simp only [] at h
        obtain ⟨ha0, hn1⟩ := choose_number_some hc1
        have hl1 : numbers1.length = numbers.length - 1 := by
          rw [hn1]; exact List.length_erase_of_mem ha0
        rcases hc2 : choose_number numbers1 (rnd (k + 1)) with ⟨b?, numbers2⟩
        rw [hc2] at h
        cases b? with
        | none =>
          simp only [Option.some.injEq, Prod.mk.injEq] at h
          rw [← h.2.1]
          exact Nat.le_add_right _ _
        | some b0 =>
          simp only [] at h
          obtain ⟨hb0, hn2⟩ := choose_number_some hc2
          have hn1p : 0 < numbers1.length :=
            List.length_pos.mpr (List.ne_nil_of_mem hb0)
          have hl2 : numbers2.length = numbers1.length - 1 := by
            rw [hn2]; exact List.length_erase_of_mem hb0
          cases hdo : do_op (if a0 < b0 then b0 else a0)
              (if a0 < b0 then a0 else b0)
              (pickOp (if a0 < b0 then b0 else a0)
                (if a0 < b0 then a0 else b0) (rnd (k + 2))) with
          | none => rw [hdo] at h; cases h
          | some res =>
            rw [hdo] at h
            simp only [] at h
            by_cases hres : res = 0
            · rw [if_pos hres] at h
              have := ih _ _ _ _ _ _ _ _ _ _ h
              simp only [List.length_append, List.length_cons,
                List.length_nil] at this
              omega
            · rw [if_neg hres] at h
              by_cases herr : |res - t| = 0
              · rw [if_pos herr] at h
                simp only [Option.some.injEq, Prod.mk.injEq] at h
                rw [← h.2.1]
                simp only [List.length_append, List.length_cons,
                  List.length_nil]
                omega
              · rw [if_neg herr] at h
                by_cases hmem : t ∈ numbers2 ++ [res]
                · rw [if_pos hmem] at h
                  simp only [Option.some.injEq, Prod.mk.injEq] at h
                  rw [← h.2.1]
                  simp only [List.length_append, List.length_cons,
                    List.length_nil]
                  omega
                · rw [if_neg hmem] at h
                  have := ih _ _ _ _ _ _ _ _ _ _ h
                  simp only [List.length_append, List.length_cons,
                    List.length_nil] at this
                  omega

theorem guessAux_len {fuel : Nat} {t : Int} {numbers : List Int}
    {steps : List Step} {best : Option (Int × SolRef)} {rnd : Nat → Nat}
    {k : Nat} {e : Int} {sol : Option (List Step)} {fin : List Step}
    {k2 : Nat}
    (h : guessAux fuel t numbers steps best rnd k = some ((e, sol), fin, k2)) :
    fin.length ≤ steps.length + numbers.length := by
  unfold guessAux at h
  split at h
  · simp only [Option.some.injEq, Prod.mk.injEq] at h
    rw [← h.2.1]
    exact Nat.le_add_right _ _
  · exact guessLoop_len _ _ _ _ _ _ _ _ _ _ _ h

/-- Invariant of the search loop: the returned error is non-negative,
never exceeds the carried-in error, and is either exactly the carried-in
best (whose solution reference is resolved against the final step list) or
the absolute error of some step recorded in the returned solution. -/
theorem guessLoop_best :
    ∀ (fuel : Nat) (t : Int) (numbers : List Int) (steps : List Step)
      (best : Int × SolRef) (rnd : Nat → Nat) (k : Nat) (e : Int)
      (sol : Option (List Step)) (fin : List Step) (k2 : Nat),
    0 ≤ best.1 →
    guessLoop fuel t numbers steps best rnd k = some ((e, sol), fin, k2) →
    0 ≤ e ∧ e ≤ best.1 ∧
      (e = best.1 ∧ sol = resolveRef best.2 fin ∨
       ∃ L, sol = some L ∧ ∃ s ∈ L, ∃ r : Int,
         stepResTok s = some (pyStr r) ∧ e = |r - t|) := by
  intro fuel
  induction fuel with
  | zero =>
    intro t numbers steps best rnd k e sol fin k2 hb h
    simp [guessLoop] at h
  | succ f ih =>
    intro t numbers steps best rnd k e sol fin k2 hb h
    rw [guessLoop] at h
    by_cases h0 : numbers = []
    · rw [if_pos h0] at h
      simp only [Option.some.injEq, Prod.mk.injEq] at h
      obtain ⟨⟨he, hsol⟩, hfin, -⟩ := h
      subst he; subst hfin
      exact ⟨hb, le_refl _, Or.inl ⟨rfl, hsol.symm⟩⟩
    · rw [if_neg h0] at h
      rcases hc1 : choose_number numbers (rnd k) with ⟨a?, numbers1⟩
      rw [hc1] at h
      cases a? with
      | none =>
        simp only [Option.some.injEq, Prod.mk.injEq] at h
        obtain ⟨⟨he, hsol⟩, hfin, -⟩ := h
        subst he; subst hfin
        exact ⟨hb, le_refl _, Or.inl ⟨rfl, hsol.symm⟩⟩
      | some a0 =>
        simp only [] at h
        rcases hc2 : choose_number numbers1 (rnd (k + 1)) with ⟨b?, numbers2⟩
        rw [hc2] at h
        cases b? with
        | none =>
          simp only [Option.some.injEq, Prod.mk.injEq] at h
          obtain ⟨⟨he, hsol⟩, hfin, -⟩ := h
          subst he; subst hfin
          exact ⟨hb, le_refl _, Or.inl ⟨rfl, hsol.symm⟩⟩
        | some b0 =>
          simp only [] at h
          have hopmem := pickOp_mem (if a0 < b0 then b0 else a0)
            (if a0 < b0 then a0 else b0) (rnd (k + 2))
          obtain ⟨hopne, hopw⟩ := opsList_not_ws hopmem
          cases hdo : do_op (if a0 < b0 then b0 else a0)
              (if a0 < b0 then a0 else b0)
              (pickOp (if a0 < b0 then b0 else a0)
                (if a0 < b0 then a0 else b0) (rnd (k + 2))) with
          | none => rw [hdo] at h; cases h
          | some res =>
            rw [hdo] at h
            simp only [] at h
            by_cases hres : res = 0
            · rw [if_pos hres] at h
              exact ih _ _ _ _ _ _ _ _ _ _ hb h
            · rw [if_neg hres] at h
              by_cases herr : |res - t| = 0
              · rw [if_pos herr] at h
                by_cases hlt : |res - t| < best.1
                · rw [if_pos hlt] at h
                  simp only [Option.some.injEq, Prod.mk.injEq,
                    resolveRef] at h
                  obtain ⟨⟨he, hsol⟩, hfin, -⟩ := h
                  refine ⟨?_, ?_, Or.inr ⟨_, hsol.symm, _,
                    List.mem_append_right steps (List.mem_singleton_self _),
                    res, stepResTok_fmtStep _ _ _ _ hopne hopw, ?_⟩⟩
                  · rw [← he]; exact abs_nonneg _
                  · rw [← he]; exact le_of_lt hlt
                  · rw [← he]
                · rw [if_neg hlt] at h
                  simp only [Option.some.injEq, Prod.mk.injEq] at h
                  obtain ⟨⟨he, hsol⟩, hfin, -⟩ := h
                  subst he; subst hfin
                  exact ⟨hb, le_refl _, Or.inl ⟨rfl, hsol.symm⟩⟩
              · rw [if_neg herr] at h
                by_cases hmem : t ∈ numbers2 ++ [res]
                · rw [if_pos hmem] at h
                  simp only [Option.some.injEq, Prod.mk.injEq] at h
                  obtain ⟨⟨he, hsol⟩, hfin, -⟩ := h
                  subst he
                  exact ⟨le_refl _, hb, Or.inr ⟨[trivialStep t], hsol.symm,
                    trivialStep t, by simp, t, stepResTok_trivialStep t,
                    by simp⟩⟩
                · rw [if_neg hmem] at h
                  by_cases hlt : |res - t| < best.1
                  · rw [if_pos hlt] at h
                    have hb1 : (0 : Int) ≤ |res - t| := abs_nonneg _
                    obtain ⟨h1, h2, h3⟩ := ih _ _ _ _ _ _ _ _ _ _ hb1 h
                    refine ⟨h1, le_trans h2 (le_of_lt hlt), ?_⟩
                    rcases h3 with ⟨he, hsol⟩ | h3
                    · refine Or.inr ⟨fin, by rw [hsol]; rfl,
                        fmtStep (if a0 < b0 then b0 else a0)
                          (pickOp (if a0 < b0 then b0 else a0)
                            (if a0 < b0 then a0 else b0) (rnd (k + 2)))
                          (if a0 < b0 then a0 else b0) res, ?_, res,
                        stepResTok_fmtStep _ _ _ _ hopne hopw, he⟩
                      exact (guessLoop_steps_grow _ _ _ _ _ _ _ _ _ _ _
                        h).subset (List.mem_append_right steps
                          (List.mem_singleton_self _))
                    · exact Or.inr h3
                  · rw [if_neg hlt] at h
                    obtain ⟨h1, h2, h3⟩ := ih _ _ _ _ _ _ _ _ _ _ hb h
                    refine ⟨h1, h2, ?_⟩
                    rcases h3 with ⟨he, hsol⟩ | h3
                    · exact Or.inl ⟨he, hsol⟩
                    · exact Or.inr h3

theorem guessAux_best {fuel : Nat} {t : Int} {numbers : List Int}
    {steps : List Step} {best : Option (Int × SolRef)} {rnd : Nat → Nat}
    {k : Nat} {e : Int} {sol : Option (List Step)} {fin : List Step}
    {k2 : Nat} (hb : 0 ≤ errOf best)
    (h : guessAux fuel t numbers steps best rnd k = some ((e, sol), fin, k2)) :
    0 ≤ e ∧ e ≤ errOf best ∧
      (e = errOf best ∧ sol = resolveRef (best.getD defaultBest).2 fin ∨
       ∃ L, sol = some L ∧ ∃ s ∈ L, ∃ r : Int,
         stepResTok s = some (pyStr r) ∧ e = |r - t|) := by
  unfold guessAux at h
  split at h
  · simp only [Option.some.injEq, Prod.mk.injEq] at h
    obtain ⟨⟨he, hsol⟩, hfin, -⟩ := h
    subst he
    exact ⟨le_refl _, hb, Or.inr ⟨[trivialStep t], hsol.symm, trivialStep t,
      by simp, t, stepResTok_trivialStep t, by simp⟩⟩
  · exact guessLoop_best _ _ _ _ _ _ _ _ _ _ _ hb h

/-! ## An adversarial choice stream on which `guess` never returns -/

/-- Choice stream that always draws both `5`s from the pool `[5, 5]` and
then picks `-` (index 1 of `["+", "-", "*", "/"]`), so every step computes
`5 - 5 = 0` and the loop puts the numbers back and retries forever. -/
def advStream (k : Nat) : Nat := if k % 3 = 2 then 1 else 0

theorem advLoop : ∀ (fuel k : Nat), k % 3 = 0 →
    guessLoop fuel 3 [5, 5] [] defaultBest advStream k = none := by
  intro fuel
  induction fuel with
  | zero => intro k hk; rfl
  | succ f ih =>
    intro k hk
    rw [guessLoop]
    have h0 : advStream k = 0 := by unfold advStream; rw [if_neg]; omega
    have h1 : advStream (k + 1) = 0 := by unfold advStream; rw [if_neg]; omega
    have h2 : advStream (k + 2) = 1 := by unfold advStream; rw [if_pos]; omega
    rw [if_neg (by simp)]
    have hc1 : choose_number [5, 5] (advStream k) = (some 5, [5]) := by
      rw [h0]; rfl
    rw [hc1]
    simp only []
    have hc2 : choose_number [5] (advStream (k + 1)) = (some 5, []) := by
      rw [h1]; rfl
    rw [hc2]
    simp only [ite_self]
    rw [h2]
    have hp : pickOp (5 : Int) 5 1 = ['-'] := by rfl
    rw [hp]
    have hd : do_op (5 : Int) 5 ['-'] = some 0 := by rfl
    rw [hd]
    simp only [if_true]
    simp only [List.nil_append]
    exact ih (k + 3) (by omega)

theorem advStream_noterm :
    ∀ fuel, guessAux fuel 3 [5, 5] [] none advStream 0 = none := by
  intro fuel
  unfold guessAux
  rw [if_neg (by decide)]
  exact advLoop fuel 0 rfl

/-! ## The solvability probe as iterated threading of `guess` calls -/

theorem has_solutionAux_iter :
    ∀ (n : Nat) (targ : Int) (nums : List Int)
      (best : Int × Option (List Step)) (rnd : Nat → Nat) (k fuel : Nat),
    has_solutionAux n targ nums best rnd k fuel =
      Option.map Prod.fst
        (iterateO (guessStep targ nums rnd fuel) n (best, k)) := by
  intro n
  induction n with
  | zero => intro targ nums best rnd k fuel; rfl
  | succ n ih =>
    intro targ nums best rnd k fuel
    rw [has_solutionAux, iterateO]
    unfold guessStep
    cases h : guessAux fuel targ nums []
        (some (best.1, SolRef.fixed best.2)) rnd k with
    | none => rfl
    | some r =>
      rcases r with ⟨r1, fin, k2⟩
      simp only []
      exact ih targ nums r1 rnd k2 fuel

theorem has_solutionAux_mono :
    ∀ (n : Nat) (targ : Int) (nums : List Int)
      (best : Int × Option (List Step)) (rnd : Nat → Nat) (k fuel : Nat)
      (best2 : Int × Option (List Step)),
    0 ≤ best.1 →
    has_solutionAux n targ nums best rnd k fuel = some best2 →
    best2.1 ≤ best.1 ∧ 0 ≤ best2.1 := by
  intro n
  induction n with
  | zero =>
    intro targ nums best rnd k fuel best2 hb h
    rw [has_solutionAux, Option.some.injEq] at h
    subst h
    exact ⟨le_refl _, hb⟩
  | succ n ih =>
    intro targ nums best rnd k fuel best2 hb h
    rw [has_solutionAux] at h
    cases hg : guessAux fuel targ nums []
        (some (best.1, SolRef.fixed best.2)) rnd k with
    | none => rw [hg] at h; cases h
    | some r =>
      rcases r with ⟨⟨e, sol⟩, fin, k2⟩
      rw [hg] at h
      simp only [] at h
      have hbb : 0 ≤ errOf (some (best.1, SolRef.fixed best.2)) := hb
      obtain ⟨he0, hele, -⟩ := guessAux_best hbb hg
      obtain ⟨h1, h2⟩ := ih targ nums (e, sol) rnd k2 fuel best2 he0 h
      exact ⟨le_trans h1 hele, h2⟩

/-! ## Concrete choice streams used in counterexamples and witnesses -/

/-- The all-zeros choice stream (always draw the first list element, always
pick the first eligible operator). -/
def zeroStream : Nat → Nat := fun _ => 0

/-- Choice stream that, on the pool `[6, 3]` with target `2`, draws `6`
then `3` and picks `/` (index 3 of `["+", "-", "*", "/"]`). -/
def divStream : Nat → Nat := fun k => if k = 2 then 3 else 0

/-! ## Genuine binary64 evaluation of the float factor test

The main embedding `is_factor` reads the source's float comparison
`(a / b) == (a // b)` in exact arithmetic.  The definitions below instead
perform the comparison the way the program really does: the exact quotient
is rounded to an IEEE-754 binary64 value (53 significant bits, round to
nearest with ties to even, gradual underflow below `2^-1022`, and an
`OverflowError` — embedded as `none` — once the rounded magnitude reaches
`2^1024`), and that rounded value is compared exactly with the integer
floor quotient (Python compares a float and an int by exact value).  They
are used to evaluate the factor test at operands beyond `2^53`, where the
rounded comparison and exact divisibility part ways. -/

/-- Fuelled base-2 logarithm: `natLog2 fuel n` halves `n` until it reaches
`1`, so with `fuel ≥ n` it computes `⌊log₂ n⌋` for `n ≥ 1`.  (`Nat.log2`
itself is defined by well-founded recursion, which does not evaluate
inside the kernel.) -/
def natLog2 : Nat → Nat → Nat
  | 0, _ => 0
  | fuel + 1, n => if n ≤ 1 then 0 else natLog2 fuel (n / 2) + 1

/-- `⌊log₂ n⌋` for `n ≥ 1` (0 at 0). -/
def nlog2 (n : Nat) : Nat := natLog2 n n

/-- Round the exact fraction `num / den` (`den ≠ 0`) to a natural number,
to nearest with ties to even. -/
def rndHalfEven (num den : Nat) : Nat :=
  let q := num / den
  let r := num % den
  if 2 * r < den then q
  else if den < 2 * r then q + 1
  else if q % 2 = 0 then q else q + 1

/-- Binary exponent of the positive rational `A / B` (`A, B ≥ 1`): the
`e` with `2^e * B ≤ A < 2^(e+1) * B`.  Since `A ∈ [2^α, 2^(α+1))` and
`B ∈ [2^β, 2^(β+1))` force `A / B ∈ (2^(α-β-1), 2^(α-β+1))`, the exponent
is `α - β` or `α - β - 1`, decided by one comparison. -/
def quotExp (A B : Nat) : Int :=
  let d : Int := (nlog2 A : Int) - (nlog2 B : Int)
  if 0 ≤ d then (if B * 2 ^ d.toNat ≤ A then d else d - 1)
  else (if B ≤ A * 2 ^ (-d).toNat then d else d - 1)

/-- The positive rational `A / B` (`A, B ≥ 1`) correctly rounded to
binary64, as a dyadic pair `(n, qe)` denoting `n * 2^qe`: the quotient is
rounded half-to-even at the quantum `2^qe`, with `qe = e - 52` for a
quotient of binary exponent `e` in the normal range and `qe = -1074` (the
subnormal quantum) below it. -/
def roundB64 (A B : Nat) : Nat × Int :=
  let e := quotExp A B
  let qe : Int := max (e - 52) (-1074)
  if 0 ≤ qe then (rndHalfEven A (B * 2 ^ qe.toNat), qe)
  else (rndHalfEven (A * 2 ^ (-qe).toNat) B, qe)

/-- Python `a / b` on integers: the exact quotient correctly rounded to
binary64 as a signed dyadic `(n, qe)` meaning `n * 2^qe`; `none` embeds
the exceptions (`ZeroDivisionError` for `b = 0`, `OverflowError` when the
rounded magnitude reaches `2^1024` — exactly the IEEE overflow threshold,
since the half-to-even rounding at quantum `2^971` tips to `2^1024` from
the midpoint `2^1024 - 2^970` upward). -/
def pyFloatDiv (a b : Int) : Option (Int × Int) :=
  if b = 0 then none
  else if a = 0 then some (0, 0)
  else
    let p := roundB64 a.natAbs b.natAbs
    if 0 ≤ p.2 ∧ 2 ^ 1024 ≤ p.1 * 2 ^ p.2.toNat then none
    else if (0 < a ∧ 0 < b) ∨ (a < 0 ∧ b < 0) then some ((p.1 : Int), p.2)
    else some (-(p.1 : Int), p.2)

/-- Python `float == int`: the dyadic `n * 2^qe` equals the integer `q`
(the comparison is exact, not a cast). -/
def dyadicEqInt (n qe q : Int) : Bool :=
  if 0 ≤ qe then decide (q = n * 2 ^ qe.toNat)
  else decide (q * 2 ^ (-qe).toNat = n)

/-- `is_factor(b, a)` with the float division evaluated genuinely:
`b == 0` short-circuits to `False`; otherwise the rounded binary64
quotient is compared exactly with `a // b` (`none` embeds a float
exception propagating out of the comparison). -/
def is_factor_float (b a : Int) : Option Bool :=
  if b = 0 then some false
  else
    match pyFloatDiv a b with
    | none => none
    | some (n, qe) => some (dyadicEqInt n qe (Int.fdiv a b))

/-- The operator list of `guess` (lines 235–242) with the factor test
evaluated in genuine binary64 arithmetic. -/
def opsListFloat (a b : Int) : Option (List (List Char)) :=
  if a = 1 ∨ b = 1 then some [['+'], ['-']]
  else
    match is_factor_float b a with
    | none => none
    | some true => some [['+'], ['-'], ['*'], ['/']]
    | some false => some [['+'], ['-'], ['*']]

set_option exponentiation.threshold 2048 in
set_option maxRecDepth 8192 in
/-- On every operand pair arising in the concrete runs of this file the
genuine float factor test agrees with the exact-arithmetic `is_factor`
of the main embedding. -/
theorem is_factor_float_agrees_on_runs :
    is_factor_float 5 5 = some true ∧ is_factor 5 5 = true ∧
    is_factor_float 4 5 = some false ∧ is_factor 4 5 = false ∧
    is_factor_float 3 6 = some true ∧ is_factor 3 6 = true ∧
    is_factor_float 9 20 = some false ∧ is_factor 9 20 = false := by
  refine ⟨?_, ?_, ?_, ?_, ?_, ?_, ?_, ?_⟩ <;> rfl

/-! ## Claims -/

/-- C1 (counterexample): on target 10 and pool [5, 4, 20], with the
all-zeros choice stream, `guess` computes 5 + 4 = 9 (error 1, recorded as
best) and then 20 + 9 = 29 (error 19); because the recorded best solution
aliases the growing step list, the returned pair is error 1 with a
solution whose final step has result 29, and 1 ≠ |29 − 10|.  This refutes
"error equals the absolute difference between the target and the final
step's result of the returned solution". -/
theorem claim_C1_counterexample :
    guessAux 10 10 [5, 4, 20] [] none zeroStream 0 =
      some ((1, some [fmtStep 5 ['+'] 4 9, fmtStep 20 ['+'] 9 29]),
        [fmtStep 5 ['+'] 4 9, fmtStep 20 ['+'] 9 29], 7) ∧
    stepResTok (fmtStep 20 ['+'] 9 29) = some (pyStr 29) ∧
    ¬ ((1 : Int) = |(29 : Int) - 10|) :=
  ⟨rfl, rfl, by decide⟩

/-- C1 (amended): for every target, pool and choice stream, a completed
fresh `guess` call returns error ≥ 0, and whenever the returned error
improves on the default (`BIGNUM`), the returned solution contains *some*
step whose result `r` satisfies error = |r − target| — not necessarily the
final step, because the recorded best solution aliases the in-progress
step list, which may grow past the best step. -/
theorem claim_C1 :
    ∀ (fuel : Nat) (t : Int) (numbers : List Int) (rnd : Nat → Nat)
      (k : Nat) (e : Int) (sol : Option (List Step)) (fin : List Step)
      (k2 : Nat),
    guessAux fuel t numbers [] none rnd k = some ((e, sol), fin, k2) →
    0 ≤ e ∧ (e < BIGNUM → ∃ L, sol = some L ∧ ∃ s ∈ L, ∃ r : Int,
      stepResTok s = some (pyStr r) ∧ e = |r - t|) := by
  intro fuel t numbers rnd k e sol fin k2 h
  have hb : (0 : Int) ≤ errOf none := by norm_num [errOf, defaultBest, BIGNUM]
  obtain ⟨h0, -, h2⟩ := guessAux_best hb h
  refine ⟨h0, fun hlt => ?_⟩
  rcases h2 with ⟨he, -⟩ | h2
  · exact absurd he (by rw [show errOf none = BIGNUM from rfl]; omega)
  · exact h2

theorem claim_C1_witness :
    0 ≤ (1 : Int) ∧ ((1 : Int) < BIGNUM →
      ∃ L, (some [fmtStep 5 ['+'] 4 9, fmtStep 20 ['+'] 9 29] :
          Option (List Step)) = some L ∧
        ∃ s ∈ L, ∃ r : Int, stepResTok s = some (pyStr r) ∧
          (1 : Int) = |r - 10|) :=
  claim_C1 10 10 [5, 4, 20] zeroStream 0 1
    (some [fmtStep 5 ['+'] 4 9, fmtStep 20 ['+'] 9 29])
    [fmtStep 5 ['+'] 4 9, fmtStep 20 ['+'] 9 29] 7 rfl

/-- C2 (counterexample): the call `guess(3, [5, 5])` does not run to
completion for every sequence of random choices: on the stream that always
draws both fives and picks subtraction, every iteration computes
`5 - 5 = 0`, puts the numbers back, and retries, so the call never returns
no matter how much fuel the embedding allows. -/
theorem claim_C2_counterexample :
    ¬ ∃ (fuel : Nat) (r : GuessRet),
      guessAux fuel 3 [5, 5] [] none advStream 0 = some r := by
  rintro ⟨fuel, r, h⟩
  rw [advStream_noterm fuel] at h
  cases h

/-- C2 (amended): a completed `guess` call builds at most pool-size many
steps: the final step list is no longer than the initial step list plus
the pool size (each recorded step consumes two pool numbers and returns
one, so the pool shrinks by one per recursive call — a depth bound of
pool size, not ⌈pool size / 2⌉); termination itself is not guaranteed for
adversarial choice sequences. -/
theorem claim_C2 :
    ∀ (fuel : Nat) (t : Int) (numbers : List Int) (steps : List Step)
      (best : Option (Int × SolRef)) (rnd : Nat → Nat) (k : Nat) (e : Int)
      (sol : Option (List Step)) (fin : List Step) (k2 : Nat),
    guessAux fuel t numbers steps best rnd k = some ((e, sol), fin, k2) →
    fin.length ≤ steps.length + numbers.length := by
  intro fuel t numbers steps best rnd k e sol fin k2 h
  exact guessAux_len h

theorem claim_C2_witness :
    ([fmtStep 5 ['+'] 4 9, fmtStep 20 ['+'] 9 29] : List Step).length ≤
      ([] : List Step).length + ([5, 4, 20] : List Int).length :=
  claim_C2 10 10 [5, 4, 20] [] none zeroStream 0 1
    (some [fmtStep 5 ['+'] 4 9, fmtStep 20 ['+'] 9 29])
    [fmtStep 5 ['+'] 4 9, fmtStep 20 ['+'] 9 29] 7 rfl

/-- C3 (counterexample): `remove_unused_steps` is not idempotent.  On
`[2 + 3 = 5, 5 + 5 = 10, 4 + 4 = 8]` the first application removes only
`5 + 5 = 10` (its result 10 is never an operand; the step `2 + 3 = 5` is
kept because its result 5 is an operand of the removed step).  Applying it
again then also removes `2 + 3 = 5`, so the second application differs
from the first. -/
theorem claim_C3_counterexample :
    remove_unused_steps
        [fmtStep 2 ['+'] 3 5, fmtStep 5 ['+'] 5 10, fmtStep 4 ['+'] 4 8] =
      some [fmtStep 2 ['+'] 3 5, fmtStep 4 ['+'] 4 8] ∧
    remove_unused_steps [fmtStep 2 ['+'] 3 5, fmtStep 4 ['+'] 4 8] =
      some [fmtStep 4 ['+'] 4 8] ∧
    ([fmtStep 4 ['+'] 4 8] : List Step) ≠
      [fmtStep 2 ['+'] 3 5, fmtStep 4 ['+'] 4 8] :=
  ⟨rfl, rfl, by decide⟩

/-- C3 (amended): applying `remove_unused_steps` twice yields a sublist of
applying it once — a second application only ever removes further steps
(and can remove strictly more, when a kept step's only consumer was itself
removed by the first application). -/
theorem claim_C3 :
    ∀ (l l1 l2 : List Step), remove_unused_steps l = some l1 →
    remove_unused_steps l1 = some l2 → List.Sublist l2 l1 := by
  intro l l1 l2 h1 h2
  exact remove_unused_steps_sublist h2

theorem claim_C3_witness :
    List.Sublist ([fmtStep 4 ['+'] 4 8] : List Step)
      [fmtStep 2 ['+'] 3 5, fmtStep 4 ['+'] 4 8] :=
  claim_C3
    [fmtStep 2 ['+'] 3 5, fmtStep 5 ['+'] 5 10, fmtStep 4 ['+'] 4 8]
    [fmtStep 2 ['+'] 3 5, fmtStep 4 ['+'] 4 8]
    [fmtStep 4 ['+'] 4 8] rfl rfl

/-- C4 (counterexample): the in-progress step sequence is *not* created
fresh per call: a caller that passes a non-empty steps list shares it with
the callee, which appends to it.  Passing `["   1 + 1    = 2   "]` on the
target-10 / pool-[5, 4, 20] run leaves the caller's list holding two more
steps after the call, refuting "the caller's steps list holds the same
values as before the call". -/
theorem claim_C4_counterexample :
    guessAux 10 10 [5, 4, 20] [fmtStep 1 ['+'] 1 2] none zeroStream 0 =
      some ((1, some [fmtStep 1 ['+'] 1 2, fmtStep 5 ['+'] 4 9,
        fmtStep 20 ['+'] 9 29]),
        [fmtStep 1 ['+'] 1 2, fmtStep 5 ['+'] 4 9, fmtStep 20 ['+'] 9 29],
        7) ∧
    callerStepsAfter [fmtStep 1 ['+'] 1 2]
        [fmtStep 1 ['+'] 1 2, fmtStep 5 ['+'] 4 9, fmtStep 20 ['+'] 9 29] ≠
      [fmtStep 1 ['+'] 1 2] :=
  ⟨rfl, by decide⟩

/-- C4 (amended): `guess` never mutates the caller's pool (it copies it on
entry, so the embedding passes it by value), and the caller's steps list is
preserved as a *prefix* of the final step list: it is extended in place
when non-empty, and left untouched (a fresh list is allocated) exactly when
the caller passed an empty list or `None`. -/
theorem claim_C4 :
    ∀ (fuel : Nat) (t : Int) (numbers : List Int) (steps : List Step)
      (best : Option (Int × SolRef)) (rnd : Nat → Nat) (k : Nat) (e : Int)
      (sol : Option (List Step)) (fin : List Step) (k2 : Nat),
    guessAux fuel t numbers steps best rnd k = some ((e, sol), fin, k2) →
    List.IsPrefix steps fin ∧
      (steps = [] → callerStepsAfter steps fin = steps) := by
  intro fuel t numbers steps best rnd k e sol fin k2 h
  exact ⟨guessAux_steps_grow h, fun hemp => by
    rw [callerStepsAfter, if_pos hemp]⟩

theorem claim_C4_witness :
    List.IsPrefix ([fmtStep 1 ['+'] 1 2] : List Step)
        [fmtStep 1 ['+'] 1 2, fmtStep 5 ['+'] 4 9, fmtStep 20 ['+'] 9 29] ∧
      (([fmtStep 1 ['+'] 1 2] : List Step) = [] →
        callerStepsAfter [fmtStep 1 ['+'] 1 2]
          [fmtStep 1 ['+'] 1 2, fmtStep 5 ['+'] 4 9, fmtStep 20 ['+'] 9 29] =
        [fmtStep 1 ['+'] 1 2]) :=
  claim_C4 10 10 [5, 4, 20] [fmtStep 1 ['+'] 1 2] none zeroStream 0 1
    (some [fmtStep 1 ['+'] 1 2, fmtStep 5 ['+'] 4 9, fmtStep 20 ['+'] 9 29])
    [fmtStep 1 ['+'] 1 2, fmtStep 5 ['+'] 4 9, fmtStep 20 ['+'] 9 29] 7 rfl

/-- C5: on every non-empty list of well-formed step strings (each splits
into exactly five fields), `remove_unused_steps` returns exactly the
non-final steps whose result field occurs among the operand fields of any
step in the list, followed by the final step — so it removes exactly the
dead non-final steps and always retains the final step. -/
theorem claim_C5 :
    ∀ (steps : List Step), steps ≠ [] →
    (∀ s ∈ steps, (splitStep s).isSome = true) →
    ∃ used last, steps.getLast? = some last ∧
      collectUsed steps = some used ∧
      remove_unused_steps steps =
        some (steps.dropLast.filter (keep used) ++ [last]) := by
  intro steps hne hw
  exact remove_unused_steps_eq steps hne hw

theorem claim_C5_witness :
    ∃ used last,
      ([fmtStep 2 ['+'] 3 5, fmtStep 5 ['+'] 5 10,
        fmtStep 4 ['+'] 4 8] : List Step).getLast? = some last ∧
      collectUsed [fmtStep 2 ['+'] 3 5, fmtStep 5 ['+'] 5 10,
        fmtStep 4 ['+'] 4 8] = some used ∧
      remove_unused_steps [fmtStep 2 ['+'] 3 5, fmtStep 5 ['+'] 5 10,
        fmtStep 4 ['+'] 4 8] =
        some (([fmtStep 2 ['+'] 3 5, fmtStep 5 ['+'] 5 10,
          fmtStep 4 ['+'] 4 8] : List Step).dropLast.filter (keep used) ++
          [last]) :=
  claim_C5 [fmtStep 2 ['+'] 3 5, fmtStep 5 ['+'] 5 10, fmtStep 4 ['+'] 4 8]
    (by decide) (by decide)

/-- C6: the tracked best error is monotone.  A completed `guess` call
returns an error that is non-negative and never exceeds the carried-in
error (which is only ever replaced by a strictly smaller one), and across
the repeated best-threading `guess` calls of `has_solution` the error is
non-increasing and never exceeds the carried-in error. -/
theorem claim_C6 :
    (∀ (fuel : Nat) (t : Int) (numbers : List Int) (steps : List Step)
      (best : Option (Int × SolRef)) (rnd : Nat → Nat) (k : Nat) (e : Int)
      (sol : Option (List Step)) (fin : List Step) (k2 : Nat),
      0 ≤ errOf best →
      guessAux fuel t numbers steps best rnd k = some ((e, sol), fin, k2) →
      0 ≤ e ∧ e ≤ errOf best) ∧
    (∀ (n : Nat) (targ : Int) (nums : List Int)
      (best : Int × Option (List Step)) (rnd : Nat → Nat) (k fuel : Nat)
      (best2 : Int × Option (List Step)),
      0 ≤ best.1 →
      has_solutionAux n targ nums best rnd k fuel = some best2 →
      best2.1 ≤ best.1) := by
  constructor
  · intro fuel t numbers steps best rnd k e sol fin k2 hb h
    obtain ⟨h0, h1, -⟩ := guessAux_best hb h
    exact ⟨h0, h1⟩
  · intro n targ nums best rnd k fuel best2 hb h
    exact (has_solutionAux_mono n targ nums best rnd k fuel best2 hb h).1

theorem claim_C6_witness :
    (0 ≤ (1 : Int) ∧ (1 : Int) ≤ errOf none) ∧
      ((0 : Int), (some [fmtStep 6 ['/'] 3 2] : Option (List Step))).1 ≤
        ((5 : Int), (none : Option (List Step))).1 :=
  ⟨claim_C6.1 10 10 [5, 4, 20] [] none zeroStream 0 1
      (some [fmtStep 5 ['+'] 4 9, fmtStep 20 ['+'] 9 29])
      [fmtStep 5 ['+'] 4 9, fmtStep 20 ['+'] 9 29] 7
      (by norm_num [errOf, defaultBest, BIGNUM]) rfl,
    claim_C6.2 1 2 [6, 3] (5, none) divStream 0 10
      (0, some [fmtStep 6 ['/'] 3 2]) (by norm_num) rfl⟩

set_option exponentiation.threshold 2048 in
set_option maxRecDepth 8192 in
/-- C7 (code bug, failing input): with the factor test evaluated in
genuine binary64 arithmetic, the operator policy admits division on the
canonically ordered pair `(2^54 + 1, 2)` — the exact quotient
`2^53 + 1/2` rounds to the double `2^53`, which equals the floor quotient,
so `is_factor(2, 2^54 + 1)` passes — and the division step then computes
`2^54 + 1 // 2 = 2^53` although the remainder is `1`.  A `guess` call on
the pool `[2^54 + 1, 2]` that draws both numbers and picks `/` therefore
returns a division step whose operands are not exactly divisible,
contradicting the zero-remainder property required by the claim (and by
the factor test's own purpose). -/
theorem claim_C7 :
    opsListFloat (2 ^ 54 + 1) 2 = some [['+'], ['-'], ['*'], ['/']] ∧
    do_op (2 ^ 54 + 1) 2 ['/'] = some (2 ^ 53) ∧
    (2 ^ 54 + 1 : Int) % 2 = 1 := by
  refine ⟨?_, ?_, ?_⟩ <;> rfl

set_option exponentiation.threshold 2048 in
set_option maxRecDepth 8192 in
/-- C8 (code bug, failing inputs): evaluated with genuine binary64 float
division, the code's `is_factor` returns `True` at
`(b, a) = (2, 2^54 + 1)` although the remainder is `1` (the exact quotient
`2^53 + 1/2` rounds to the double `2^53 = a // b`), and returns `False` at
`(b, a) = (3, 3 * (2^53 + 1))` although `3` divides `a` exactly (the odd
quotient `2^53 + 1` needs 54 significant bits, so it rounds half-to-even
to `2^53 ≠ a // b`).  The claimed equivalence with
`b ≠ 0 ∧ a mod b = 0` therefore fails in both directions. -/
theorem claim_C8 :
    is_factor_float 2 (2 ^ 54 + 1) = some true ∧
    (2 ^ 54 + 1 : Int) % 2 = 1 ∧
    is_factor_float 3 (3 * (2 ^ 53 + 1)) = some false ∧
    (3 * (2 ^ 53 + 1) : Int) % 3 = 0 := by
  refine ⟨?_, ?_, ?_, ?_⟩ <;> rfl

/-- C9: `has_solution` is exactly 1000 `guess` calls threaded through a
single-call step function, starting from the sentinel `(BIGNUM, None)`,
returning true iff the error after the final call is exactly 0. -/
theorem claim_C9 :
    ∀ (targ : Int) (nums : List Int) (rnd : Nat → Nat) (fuel : Nat),
    has_solution targ nums rnd fuel =
      Option.map (fun bk => decide (bk.1.1 = 0))
        (iterateO (guessStep targ nums rnd fuel) 1000 ((BIGNUM, none), 0)) := by
  intro targ nums rnd fuel
  rw [has_solution, has_solutionAux_iter, Option.map_map]
  rfl

/-- C10: `remove_unused_steps` is not total on the solutions `guess` can
return: any list containing a step that does not split into exactly five
whitespace-separated fields makes it fail with an unpacking error
(embedded as `none`); in particular `guess` returns the three-field
trivial step `t = t` whenever the target is already in the pool, and the
pruner fails on it. -/
theorem claim_C10 :
    (∀ (steps : List Step) (s : Step), s ∈ steps → splitStep s = none →
      remove_unused_steps steps = none) ∧
    (∀ (fuel : Nat) (t : Int) (numbers : List Int) (steps : List Step)
      (rnd : Nat → Nat) (k : Nat), t ∈ numbers →
      guessAux fuel t numbers steps none rnd k =
        some ((0, some [trivialStep t]), steps, k)) ∧
    (∀ t : Int, remove_unused_steps [trivialStep t] = none) := by
  refine ⟨fun steps s hs h => remove_unused_steps_none hs h,
    fun fuel t numbers steps rnd k hmem => ?_,
    fun t => remove_unused_steps_none (List.mem_singleton_self _)
      (splitStep_trivialStep t)⟩
  rw [guessAux, if_pos hmem]

theorem claim_C10_witness :
    remove_unused_steps [fmtStep 2 ['+'] 3 5, trivialStep 9] = none ∧
    guessAux 5 4 [4] [] none zeroStream 0 =
      some ((0, some [trivialStep 4]), [], 0) ∧
    remove_unused_steps [trivialStep 4] = none :=
  ⟨claim_C10.1 [fmtStep 2 ['+'] 3 5, trivialStep 9] (trivialStep 9)
      (by simp) rfl,
    claim_C10.2.1 5 4 [4] [] zeroStream 0 (by decide),
    claim_C10.2.2 4⟩

end CdSolver
